import Mathlib

/-!
Verification development for the `wcrl` web crawler.

The development shallowly embeds the crawler's source:

* `src/utils.ts` — URL validity, glob-to-regex compilation, base-domain
  extraction, URL normalization, internal/external classification.
* `src/processor.ts` — link and media extraction from a rendered document.
* `src/index.ts` — the crawl orchestration loop (frontier queue, visited
  set, page budget).

Strings are embedded as `List Char`.  The platform WHATWG `URL` constructor
(`new URL(href)` / `new URL(href, base)`), which is not part of the
repository, is modelled from the design document's description of UrlScope:
an absolute-URL parser for authority-carrying URLs of the shape
`scheme://host[/path][?query][#fragment]`, together with relative-reference
resolution against such a base.  The JavaScript `RegExp` engine is modelled
by a small matcher covering exactly the constructs the compiled patterns
use (literals, `\`-escapes, `.`, `[^/]`, and the `*` / `?` quantifiers),
with full-match anchoring for regexes of the form `^...$`.
-/

/-! ## String-splitting primitives used by the URL model -/

/-- Split a character list at the first occurrence of `c`, returning the
parts before and after it, or `none` when `c` does not occur. -/
def splitFirst (c : Char) : List Char → Option (List Char × List Char)
  | [] => none
  | x :: xs =>
    if x = c then some ([], xs)
    else
      match splitFirst c xs with
      | none => none
      | some (a, b) => some (x :: a, b)

/-- Split at the first occurrence of a marker character `c` (as the WHATWG
parser does for `?` and `#`): the part before it, and optionally the part
after it. -/
def splitMarker (c : Char) (s : List Char) : List Char × Option (List Char) :=
  match splitFirst c s with
  | none => (s, none)
  | some (a, b) => (a, some b)

/-- Reattach an optional marker-delimited component (used to serialize the
query and fragment parts of a URL). -/
def markerRest (c : Char) : Option (List Char) → List Char
  | none => []
  | some b => c :: b

/-- Characters that terminate the authority (host) component. -/
def hostStop (c : Char) : Bool := c == '/' || c == '?' || c == '#'

/-- Span the host component: the longest prefix free of `/`, `?`, `#`,
paired with the remainder. -/
def spanHost : List Char → List Char × List Char
  | [] => ([], [])
  | c :: cs =>
    if hostStop c then ([], c :: cs)
    else
      let p := spanHost cs
      (c :: p.1, p.2)

/-! ## URL model

Modelled from the spec: the repository calls the platform's WHATWG `URL`
constructor, which is not in the repository's sources.  §4.1 of the design
describes it as parsing absolute URLs (scheme + authority) and resolving
relative references against a base; the model below realizes exactly that
fragment, restricted to authority-carrying URLs, which is the form the
crawler exercises (seeds and crawled links are http(s) URLs). -/

/-- A parsed URL record: `scheme://host path ?query #fragment`. -/
structure URLRec where
  scheme : List Char
  host : List Char
  path : List Char
  query : Option (List Char)
  fragment : Option (List Char)
deriving DecidableEq

/-- Characters admissible in a URL scheme. -/
def isSchemeChar (c : Char) : Bool :=
  c.isAlpha || c.isDigit || c == '+' || c == '-' || c == '.'

/-- A scheme is non-empty, starts with a letter, and uses scheme characters. -/
def schemeOk (sch : List Char) : Bool :=
  match sch with
  | [] => false
  | c :: _ => c.isAlpha && sch.all isSchemeChar

/-- Parse the path / query / fragment portion that follows the authority:
split at the first `#`, then at the first `?`; an empty path serializes
as `/` (as the platform does for `https://host`). -/
def parsePQF (s : List Char) : List Char × Option (List Char) × Option (List Char) :=
  let m1 := splitMarker '#' s
  let m2 := splitMarker '?' m1.1
  (if m2.1 = [] then ['/'] else m2.1, m2.2, m1.2)

/-- Modelled from the spec: the platform `new URL(s)` constructor (absent
from the repository's sources), described in §4.1 as parsing absolute
URLs (scheme + authority), here for the form
`scheme://host[/path][?query][#fragment]`; any other input is a parse
failure (`none`). -/
def parseURL (s : List Char) : Option URLRec :=
  match splitFirst ':' s with
  | none => none
  | some (sch, rest0) =>
    match rest0 with
    | '/' :: '/' :: rest =>
      if schemeOk sch then
        let hp := spanHost rest
        if hp.1 = [] then none
        else
          let pqf := parsePQF hp.2
          some ⟨sch, hp.1, pqf.1, pqf.2.1, pqf.2.2⟩
      else none
    | _ => none

/-- Serialize a URL record — models the `href` property of a platform URL. -/
def URLRec.href (r : URLRec) : List Char :=
  r.scheme ++ ':' :: '/' :: '/' :: r.host ++ r.path ++
    markerRest '?' r.query ++ markerRest '#' r.fragment

/-- Directory prefix of a path: everything up to and including the last `/`
(used for merging a relative reference with the base path). -/
def dirOf (p : List Char) : List Char :=
  (p.reverse.dropWhile (fun c => !(c == '/'))).reverse

/-- Modelled from the spec: the platform `new URL(href, base)` resolver
(absent from the repository's sources).  An absolute `href` wins
outright; otherwise `href` is interpreted as a relative reference against
a successfully parsed `base` (fragment-only, query-only,
protocol-relative, path-absolute, or path-relative).  `none` models the
constructor throwing. -/
def resolveURL (href base : List Char) : Option URLRec :=
  match parseURL href with
  | some r => some r
  | none =>
    match parseURL base with
    | none => none
    | some b =>
      match href with
      | [] => some { b with fragment := none }
      | '#' :: f => some { b with fragment := some f }
      | '?' :: rest =>
        let m := splitMarker '#' rest
        some { b with query := some m.1, fragment := m.2 }
      | '/' :: '/' :: rest => parseURL (b.scheme ++ ':' :: '/' :: '/' :: rest)
      | '/' :: rest =>
        let pqf := parsePQF ('/' :: rest)
        some { b with path := pqf.1, query := pqf.2.1, fragment := pqf.2.2 }
      | other =>
        let m1 := splitMarker '#' other
        let m2 := splitMarker '?' m1.1
        some { b with path := dirOf b.path ++ m2.1, query := m2.2, fragment := m1.2 }

/-! ## UrlScope operations (from `src/utils.ts`) -/

/-- From `src/utils.ts`: `isValidUrl` — `new URL(url)` inside try/catch. -/
def isValidUrl (url : List Char) : Bool :=
  (parseURL url).isSome

/-- Strip one leading `www.` — the `replace(/^www\./, '')` step. -/
def stripWWW (h : List Char) : List Char :=
  if "www.".toList.isPrefixOf h then h.drop 4 else h

/-- From `src/utils.ts`: `getBaseDomain` — hostname with a leading `www.`
stripped, or the empty string on parse failure. -/
def getBaseDomain (url : List Char) : List Char :=
  match parseURL url with
  | some r => stripWWW r.host
  | none => []

/-- From `src/utils.ts`: `normalizeUrl` — resolve `href` against `baseUrl`,
clear the hash, and serialize; on failure return `href` unchanged. -/
def normalizeUrl (href baseUrl : List Char) : List Char :=
  match resolveURL href baseUrl with
  | some r => URLRec.href { r with fragment := none }
  | none => href

/-- From `src/utils.ts`: `isExternal` — `true` iff the `www.`-stripped
hostname does not end with `baseDomain`; `false` on parse failure. -/
def isExternal (url baseDomain : List Char) : Bool :=
  match parseURL url with
  | some r => !(baseDomain.isSuffixOf (stripWWW r.host))
  | none => false

/-- Hostname of a URL as the platform model reports it (empty on failure);
used to state claims about `isExternal` in terms of the parsed hostname. -/
def hostnameOf (url : List Char) : List Char :=
  match parseURL url with
  | some r => r.host
  | none => []

/-! ## Glob-to-regex compilation (from `src/utils.ts` `createMatchRegex`)

The source builds a regex string via four global string replacements and
wraps it in `^`/`$` anchors.  `replaceAll` reproduces JavaScript's
`String.prototype.replace` with a global literal pattern: leftmost,
non-overlapping, and the replacement text is not rescanned. -/

/-- Worker for `replaceAll`, structurally recursive on a fuel argument so
that it reduces inside the kernel.  Every call consumes at least one input
character (a non-empty `pat` match consumes `pat.length ≥ 1` characters),
so fuel equal to the input length is never exhausted. -/
def replaceAllAux (pat rep : List Char) : Nat → List Char → List Char
  | _, [] => []
  | 0, s => s
  | fuel + 1, c :: rest =>
    if pat ≠ [] ∧ pat.isPrefixOf (c :: rest) = true then
      rep ++ replaceAllAux pat rep fuel ((c :: rest).drop pat.length)
    else
      c :: replaceAllAux pat rep fuel rest

/-- Replace every (leftmost, non-overlapping) occurrence of `pat` by `rep`. -/
def replaceAll (pat rep s : List Char) : List Char :=
  replaceAllAux pat rep s.length s

/-- From `src/utils.ts`: `createMatchRegex` — escape `.`, protect `**`
behind a sentinel, turn lone `*` into `[^/]*`, expand the sentinel to
`.*`, and anchor the result with `^` and `$`. -/
def createMatchRegex (pattern : List Char) : List Char :=
  let e1 := replaceAll ".".toList "\\.".toList pattern
  let e2 := replaceAll "**".toList "___DOUBLE___".toList e1
  let e3 := replaceAll "*".toList "[^/]*".toList e2
  let e4 := replaceAll "___DOUBLE___".toList ".*".toList e3
  '^' :: e4 ++ ['$']

/-! ## Regex matcher

Modelled from the spec: the compiled pattern is executed by the platform
`RegExp` engine, which is not repository code.  The model interprets the
regex fragment those compiled strings live in: plain literals,
backslash-escapes, the `.` wildcard (excluding line terminators), the
`[^/]` class, and the `*` / `?` quantifiers, inside a full-match
`^...$` envelope.  Matching is set-theoretic (a match exists iff the
backtracking engine finds one). -/

/-- Atom bases: a literal character, the `.` wildcard, or `[^/]`. -/
inductive RBase where
  | lit (c : Char)
  | anyChar
  | noSlash
deriving DecidableEq

/-- Quantifiers: exactly one, `*` (zero or more), `?` (zero or one). -/
inductive RQuant where
  | one
  | star
  | opt
deriving DecidableEq

/-- Whether a base matches one character (`.` excludes line terminators,
as in JavaScript). -/
def baseAccepts : RBase → Char → Bool
  | RBase.lit c, d => c == d
  | RBase.anyChar, d => !(d == '\n' || d == '\r')
  | RBase.noSlash, d => !(d == '/')

/-- Parse a regex body (no anchors) into a list of quantified atoms.
Constructs outside the modelled fragment yield `none`. -/
def parseAtoms : List Char → Option (List (RBase × RQuant))
  | [] => some []
  | '\\' :: c :: '*' :: rest => (parseAtoms rest).map (fun l => (RBase.lit c, RQuant.star) :: l)
  | '\\' :: c :: '?' :: rest => (parseAtoms rest).map (fun l => (RBase.lit c, RQuant.opt) :: l)
  | '\\' :: c :: rest => (parseAtoms rest).map (fun l => (RBase.lit c, RQuant.one) :: l)
  | ['\\'] => none
  | '[' :: '^' :: '/' :: ']' :: '*' :: rest =>
    (parseAtoms rest).map (fun l => (RBase.noSlash, RQuant.star) :: l)
  | '[' :: '^' :: '/' :: ']' :: '?' :: rest =>
    (parseAtoms rest).map (fun l => (RBase.noSlash, RQuant.opt) :: l)
  | '[' :: '^' :: '/' :: ']' :: rest =>
    (parseAtoms rest).map (fun l => (RBase.noSlash, RQuant.one) :: l)
  | '[' :: _ => none
  | '.' :: '*' :: rest => (parseAtoms rest).map (fun l => (RBase.anyChar, RQuant.star) :: l)
  | '.' :: '?' :: rest => (parseAtoms rest).map (fun l => (RBase.anyChar, RQuant.opt) :: l)
  | '.' :: rest => (parseAtoms rest).map (fun l => (RBase.anyChar, RQuant.one) :: l)
  | '*' :: _ => none
  | '?' :: _ => none
  | '+' :: _ => none
  | '(' :: _ => none
  | ')' :: _ => none
  | '|' :: _ => none
  | '^' :: _ => none
  | '$' :: _ => none
  | c :: '*' :: rest => (parseAtoms rest).map (fun l => (RBase.lit c, RQuant.star) :: l)
  | c :: '?' :: rest => (parseAtoms rest).map (fun l => (RBase.lit c, RQuant.opt) :: l)
  | c :: rest => (parseAtoms rest).map (fun l => (RBase.lit c, RQuant.one) :: l)

/-- Worker for `rmatch`, structurally recursive on a fuel argument so that
it reduces inside the kernel.  Every call either consumes an input
character or discards an atom while keeping the input, so fuel
`(atoms.length + 1) * (input.length + 1)` is never exhausted. -/
def rmatchAux : Nat → List (RBase × RQuant) → List Char → Bool
  | 0, _, _ => false
  | _ + 1, [], [] => true
  | _ + 1, [], _ :: _ => false
  | _ + 1, (_, RQuant.one) :: _, [] => false
  | fuel + 1, (b, RQuant.one) :: rest, c :: s => baseAccepts b c && rmatchAux fuel rest s
  | fuel + 1, (b, RQuant.opt) :: rest, s =>
    rmatchAux fuel rest s ||
      (match s with
       | [] => false
       | c :: s2 => baseAccepts b c && rmatchAux fuel rest s2)
  | fuel + 1, (b, RQuant.star) :: rest, s =>
    rmatchAux fuel rest s ||
      (match s with
       | [] => false
       | c :: s2 => baseAccepts b c && rmatchAux fuel ((b, RQuant.star) :: rest) s2)

/-- Whether a quantified-atom list matches the whole input. -/
def rmatch (atoms : List (RBase × RQuant)) (input : List Char) : Bool :=
  rmatchAux ((atoms.length + 1) * (input.length + 1)) atoms input

/-- Modelled from the spec: the platform `RegExp.prototype.test` (absent
from the repository's sources) on regex strings of the anchored form
`^body$`, which is the form `createMatchRegex` produces. -/
def regexAccepts (regex input : List Char) : Bool :=
  match regex with
  | '^' :: body =>
    if body.getLast? = some '$' then
      match parseAtoms body.dropLast with
      | some atoms => rmatch atoms input
      | none => false
    else false
  | _ => false

/-- `createMatchRegex(pattern).test(input)` as used by the crawl loop. -/
def regexTest (pattern input : List Char) : Bool :=
  regexAccepts (createMatchRegex pattern) input

/-! ## Content extraction (from `src/processor.ts`) -/

/-- An anchor element as the extractor sees it: an optional `href`
attribute, visible text, and an optional `title` attribute. -/
structure Anchor where
  href : Option (List Char)
  text : List Char
  title : Option (List Char)
deriving DecidableEq

/-- A produced link record (`Link` in `src/types.ts`). -/
structure LinkRec where
  href : List Char
  text : List Char
  title : List Char
deriving DecidableEq

/-- Trim leading and trailing whitespace — models `String.prototype.trim`. -/
def trimText (s : List Char) : List Char :=
  ((s.dropWhile Char.isWhitespace).reverse.dropWhile Char.isWhitespace).reverse

/-- The per-anchor step of `extractLinks`: anchors without an `href` (or
with an empty one, which is falsy in JavaScript) are skipped; otherwise
the href is normalized against the page URL and a link record is built. -/
def mkLink (baseUrl : List Char) (a : Anchor) : Option LinkRec :=
  match a.href with
  | none => none
  | some h =>
    if h = [] then none
    else some ⟨normalizeUrl h baseUrl, trimText a.text, a.title.getD []⟩

/-- From `src/processor.ts`: `extractLinks` — walk the anchors in document
order, build link records, and classify each into the `(internal,
external)` buckets using `isExternal` on the normalized href. -/
def extractLinks (anchors : List Anchor) (baseUrl baseDomain : List Char) :
    List LinkRec × List LinkRec :=
  match anchors with
  | [] => ([], [])
  | a :: rest =>
    let p := extractLinks rest baseUrl baseDomain
    match mkLink baseUrl a with
    | none => p
    | some link =>
      if isExternal link.href baseDomain then (p.1, link :: p.2)
      else (link :: p.1, p.2)

/-- A media-bearing element: an `img` (with optional `src` / `alt`
attributes) or a `video` / `video source` (with an optional `src`). -/
inductive MediaEl where
  | img (src : Option (List Char)) (alt : Option (List Char))
  | video (src : Option (List Char))
deriving DecidableEq

/-- Media discriminator (the `type` field of `MediaItem` in `src/types.ts`). -/
inductive MType where
  | image
  | video
deriving DecidableEq

/-- A produced media record (`MediaItem` in `src/types.ts`). -/
structure MediaItem where
  src : List Char
  alt : Option (List Char)
  type : MType
deriving DecidableEq

/-- The per-element step for images: skip when `src` is absent, empty
(falsy), or a `data:` URI; otherwise normalize the src and keep the
(possibly empty) `alt`. -/
def mkImage (baseUrl : List Char) (e : MediaEl) : Option MediaItem :=
  match e with
  | MediaEl.img (some src) alt =>
    if src = [] then none
    else if "data:".toList.isPrefixOf src then none
    else some ⟨normalizeUrl src baseUrl, some (alt.getD []), MType.image⟩
  | _ => none

/-- The per-element step for videos: keep any non-empty `src`, normalized. -/
def mkVideo (baseUrl : List Char) (e : MediaEl) : Option MediaItem :=
  match e with
  | MediaEl.video (some src) =>
    if src = [] then none
    else some ⟨normalizeUrl src baseUrl, none, MType.video⟩
  | _ => none

/-- From `src/processor.ts`: `extractMedia` — the `(images, videos)`
buckets, built in document order. -/
def extractMedia (els : List MediaEl) (baseUrl : List Char) :
    List MediaItem × List MediaItem :=
  (els.filterMap (mkImage baseUrl), els.filterMap (mkVideo baseUrl))

/-! ## Crawl orchestration loop (from `src/index.ts`)

The loop state is the accumulated result sequence (represented by the
page URLs, which is all the budget / uniqueness claims speak about), the
visited set (a JavaScript `Set`, modelled as its insertion-order list),
the frontier queue, and — as specification-only ghost state — the trace
of dequeued URLs.  The rendering-plus-extraction of one page is abstracted
as `web : List Char → Option (List (List Char))`: `none` models a render
failure, `some links` models a successful render whose processed internal
links (`processed.links.internal`, in document order) are `links`. -/

/-- Crawl loop state. -/
structure CrawlState where
  results : List (List Char)
  visited : List (List Char)
  queue : List (List Char)
  trace : List (List Char)
deriving DecidableEq

/-- The link-enqueueing loop: `for (const link of links) if
(regex.test(link) && !visited.has(link) && !queue.includes(link))
queue.push(link)` — note the containment check is against the queue as it
grows. -/
def enqueueLinks (matcher : List Char → Bool) (visited : List (List Char)) :
    List (List Char) → List (List Char) → List (List Char)
  | q, [] => q
  | q, l :: ls =>
    enqueueLinks matcher visited
      (if matcher l = true ∧ l ∉ visited ∧ l ∉ q then q ++ [l] else q) ls

/-- One iteration of the crawl `while` body, assuming the loop guard held:
dequeue the front URL; skip it when falsy (empty) or already visited;
otherwise mark it visited before rendering, and on success append a result
and (budget permitting) enqueue the in-scope unseen links. -/
def step (web : List Char → Option (List (List Char)))
    (matcher : List Char → Bool) (maxPages : Nat) (s : CrawlState) : CrawlState :=
  match s.queue with
  | [] => s
  | u :: rest =>
    if u = [] then { s with queue := rest, trace := s.trace ++ [u] }
    else if u ∈ s.visited then { s with queue := rest, trace := s.trace ++ [u] }
    else
      let visited1 := s.visited ++ [u]
      match web u with
      | none => { s with visited := visited1, queue := rest, trace := s.trace ++ [u] }
      | some links =>
        let results1 := s.results ++ [u]
        if results1.length < maxPages then
          { results := results1, visited := visited1,
            queue := enqueueLinks matcher visited1 rest links,
            trace := s.trace ++ [u] }
        else
          { results := results1, visited := visited1, queue := rest,
            trace := s.trace ++ [u] }

/-- The crawl `while` loop, run for at most `n` iterations: continue while
the queue is non-empty and the result count is below the budget. -/
def crawlRun (web : List Char → Option (List (List Char)))
    (matcher : List Char → Bool) (maxPages : Nat) : Nat → CrawlState → CrawlState
  | 0, s => s
  | n + 1, s =>
    if s.queue ≠ [] ∧ s.results.length < maxPages then
      crawlRun web matcher maxPages n (step web matcher maxPages s)
    else s

/-- Initial crawl state: the frontier seeded with the start URL. -/
def initState (url : List Char) : CrawlState :=
  ⟨[], [], [url], []⟩

/-- A concrete five-page site used to exercise the loop: the seed `s`
links to `a` then `d`; `a` links to `b` then `c`; `f` fails to render;
every other page renders with no links. -/
def webC3 (u : List Char) : Option (List (List Char)) :=
  if u = "s".toList then some ["a".toList, "d".toList]
  else if u = "a".toList then some ["b".toList, "c".toList]
  else if u = "f".toList then none
  else some []

/-! ## Lemmas about the splitting primitives -/

theorem splitFirst_none {c : Char} : ∀ {s : List Char}, splitFirst c s = none → c ∉ s := by
  intro s
  induction s with
  | nil => simp
  | cons x xs ih =>
    simp only [splitFirst]
    split
    · simp
    · rename_i hxc
      cases hsf : splitFirst c xs with
      | none =>
        intro _
        simp only [List.mem_cons, not_or]
        exact ⟨fun h => hxc h.symm, ih hsf⟩
      | some p => simp [hsf]

theorem splitFirst_some {c : Char} :
    ∀ {s a b : List Char}, splitFirst c s = some (a, b) → c ∉ a ∧ s = a ++ c :: b := by
  intro s
  induction s with
  | nil => simp [splitFirst]
  | cons x xs ih =>
    intro a b
    simp only [splitFirst]
    split
    · rename_i hxc
      intro h
      obtain ⟨rfl, rfl⟩ : ([] : List Char) = a ∧ xs = b := by
        constructor <;> [exact congrArg Prod.fst (Option.some.inj h); exact congrArg Prod.snd (Option.some.inj h)]
      simp [hxc]
    · rename_i hxc
      cases hsf : splitFirst c xs with
      | none => simp [hsf]
      | some p =>
        obtain ⟨a0, b0⟩ := p
        simp only [hsf]
        intro h
        obtain ⟨rfl, rfl⟩ : x :: a0 = a ∧ b0 = b := by
          constructor <;> [exact congrArg Prod.fst (Option.some.inj h); exact congrArg Prod.snd (Option.some.inj h)]
        obtain ⟨hna, hs⟩ := ih hsf
        constructor
        · simp only [List.mem_cons, not_or]
          exact ⟨fun h => hxc h.symm, hna⟩
        · simp [hs]

theorem splitFirst_of_not_mem {c : Char} : ∀ {s : List Char}, c ∉ s → splitFirst c s = none := by
  intro s
  induction s with
  | nil => simp [splitFirst]
  | cons x xs ih =>
    intro h
    simp only [List.mem_cons, not_or] at h
    simp only [splitFirst]
    rw [if_neg (fun hxc => h.1 hxc.symm), ih h.2]

theorem splitFirst_of_append {c : Char} {b : List Char} :
    ∀ {a : List Char}, c ∉ a → splitFirst c (a ++ c :: b) = some (a, b) := by
  intro a
  induction a with
  | nil => simp [splitFirst]
  | cons x xs ih =>
    intro h
    simp only [List.mem_cons, not_or] at h
    simp only [List.cons_append, splitFirst, List.append_eq]
    rw [if_neg (fun hxc => h.1 hxc.symm), ih h.2]

theorem splitMarker_spec {c : Char} {s a : List Char} {ob : Option (List Char)}
    (h : splitMarker c s = (a, ob)) : c ∉ a ∧ s = a ++ markerRest c ob := by
  unfold splitMarker at h
  cases hsf : splitFirst c s with
  | none =>
    rw [hsf] at h
    obtain ⟨rfl, rfl⟩ : s = a ∧ (none : Option (List Char)) = ob := by
      constructor <;> [exact congrArg Prod.fst h; exact congrArg Prod.snd h]
    exact ⟨splitFirst_none hsf, by simp [markerRest]⟩
  | some p =>
    obtain ⟨a0, b0⟩ := p
    rw [hsf] at h
    obtain ⟨rfl, rfl⟩ : a0 = a ∧ some b0 = ob := by
      constructor <;> [exact congrArg Prod.fst h; exact congrArg Prod.snd h]
    obtain ⟨hna, hs⟩ := splitFirst_some hsf
    exact ⟨hna, by simpa [markerRest] using hs⟩

theorem splitMarker_of_not_mem {c : Char} {s : List Char} (h : c ∉ s) :
    splitMarker c s = (s, none) := by
  unfold splitMarker
  rw [splitFirst_of_not_mem h]

theorem splitMarker_of_append {c : Char} {a b : List Char} (h : c ∉ a) :
    splitMarker c (a ++ c :: b) = (a, some b) := by
  unfold splitMarker
  rw [splitFirst_of_append h]

theorem spanHost_spec : ∀ {s a b : List Char}, spanHost s = (a, b) →
    s = a ++ b ∧ (∀ x ∈ a, hostStop x = false) ∧
      (b = [] ∨ ∃ d bs, b = d :: bs ∧ hostStop d = true) := by
  intro s
  induction s with
  | nil =>
    intro a b h
    simp only [spanHost] at h
    obtain ⟨rfl, rfl⟩ : ([] : List Char) = a ∧ ([] : List Char) = b := by
      constructor <;> [exact congrArg Prod.fst h; exact congrArg Prod.snd h]
    simp
  | cons x xs ih =>
    intro a b
    simp only [spanHost]
    split
    · rename_i hx
      intro h
      obtain ⟨rfl, rfl⟩ : ([] : List Char) = a ∧ x :: xs = b := by
        constructor <;> [exact congrArg Prod.fst h; exact congrArg Prod.snd h]
      exact ⟨rfl, by simp, Or.inr ⟨x, xs, rfl, hx⟩⟩
    · rename_i hx
      intro h
      obtain ⟨rfl, rfl⟩ : x :: (spanHost xs).1 = a ∧ (spanHost xs).2 = b := by
        constructor <;> [exact congrArg Prod.fst h; exact congrArg Prod.snd h]
      obtain ⟨hs, hall, hsnd⟩ := ih rfl
      refine ⟨by simpa using hs, ?_, hsnd⟩
      intro y hy
      rcases List.mem_cons.mp hy with rfl | hy2
      · exact Bool.of_not_eq_true hx
      · exact hall y hy2

theorem spanHost_of_append : ∀ {a b : List Char}, (∀ x ∈ a, hostStop x = false) →
    (b = [] ∨ ∃ d bs, b = d :: bs ∧ hostStop d = true) → spanHost (a ++ b) = (a, b) := by
  intro a
  induction a with
  | nil =>
    intro b _ hb
    rcases hb with rfl | ⟨d, bs, rfl, hd⟩
    · simp [spanHost]
    · simp [spanHost, hd]
  | cons x xs ih =>
    intro b ha hb
    have hx : hostStop x = false := ha x (List.mem_cons_self x xs)
    have hxs : ∀ y ∈ xs, hostStop y = false := fun y hy => ha y (List.mem_cons_of_mem x hy)
    simp only [List.cons_append, spanHost, hx, Bool.false_eq_true, if_false, List.append_eq]
    rw [ih hxs hb]

/-! ## Well-formedness of parsed URLs and the parse/serialize round trip -/

/-- Invariants every record produced by `parseURL` satisfies; they are
exactly what makes serialization re-parse to the same record. -/
structure URLWF (r : URLRec) : Prop where
  scheme_ok : schemeOk r.scheme = true
  host_ne : r.host ≠ []
  host_ok : ∀ x ∈ r.host, hostStop x = false
  path_shape : ∃ t, r.path = '/' :: t
  path_no_query : '?' ∉ r.path
  path_no_hash : '#' ∉ r.path
  query_no_hash : ∀ q, r.query = some q → '#' ∉ q

theorem schemeOk_not_mem {sch : List Char} (h : schemeOk sch = true) {c : Char}
    (hc : isSchemeChar c = false) : c ∉ sch := by
  intro hmem
  unfold schemeOk at h
  cases sch with
  | nil => simp at h
  | cons x xs =>
    rw [Bool.and_eq_true, List.all_eq_true] at h
    have hcs := h.2 c hmem
    rw [hc] at hcs
    cases hcs

theorem parsePQF_no_markers (s : List Char) :
    '?' ∉ (parsePQF s).1 ∧ '#' ∉ (parsePQF s).1 ∧
      (∀ q, (parsePQF s).2.1 = some q → '#' ∉ q) := by
  unfold parsePQF
  rcases hm1 : splitMarker '#' s with ⟨pq, frag⟩
  rcases hm2 : splitMarker '?' pq with ⟨p0, q0⟩
  obtain ⟨h1na, h1s⟩ := splitMarker_spec hm1
  obtain ⟨h2na, h2s⟩ := splitMarker_spec hm2
  have hp0pq : ∀ x ∈ p0, x ∈ pq := by
    intro x hx
    rw [h2s]
    exact List.mem_append_left _ hx
  have hq0 : ∀ qq, q0 = some qq → '#' ∉ qq := by
    rintro qq rfl hqq
    apply h1na
    rw [h2s]
    exact List.mem_append_right _ (by simp [markerRest, hqq])
  simp only [hm1, hm2]
  by_cases hp0 : p0 = []
  · rw [if_pos hp0]
    refine ⟨by decide, by decide, hq0⟩
  · rw [if_neg hp0]
    exact ⟨h2na, fun hmem => h1na (hp0pq _ hmem), hq0⟩

theorem parsePQF_shape {s : List Char}
    (hs : s = [] ∨ ∃ d t, s = d :: t ∧ hostStop d = true) :
    ∃ t, (parsePQF s).1 = '/' :: t := by
  rcases hs with rfl | ⟨d, t, rfl, hd⟩
  · exact ⟨[], rfl⟩
  · unfold parsePQF
    rcases hm1 : splitMarker '#' (d :: t) with ⟨pq, frag⟩
    rcases hm2 : splitMarker '?' pq with ⟨p0, q0⟩
    obtain ⟨h1na, h1s⟩ := splitMarker_spec hm1
    obtain ⟨h2na, h2s⟩ := splitMarker_spec hm2
    simp only [hm1, hm2]
    by_cases hp0 : p0 = []
    · rw [if_pos hp0]
      exact ⟨[], rfl⟩
    · rw [if_neg hp0]
      rcases p0 with _ | ⟨y, p1⟩
      · exact absurd rfl hp0
      · have hdy : d = y := by
          rw [h2s, List.cons_append] at h1s
          exact (List.cons.injEq _ _ _ _).mp h1s |>.1
        have hd3 : d = '/' ∨ d = '?' ∨ d = '#' := by
          simpa [hostStop, beq_iff_eq, or_assoc] using hd
        rcases hd3 with rfl | rfl | rfl
        · exact ⟨p1, by rw [hdy]⟩
        · exact absurd (hdy ▸ List.mem_cons_self y p1) h2na
        · refine absurd ?_ h1na
          rw [h2s]
          exact List.mem_append_left _ (hdy ▸ List.mem_cons_self y p1)

theorem parsePQF_reassemble {path : List Char} {q f : Option (List Char)}
    (hne : path ≠ []) (hq : '?' ∉ path) (hh : '#' ∉ path)
    (hqh : ∀ qq, q = some qq → '#' ∉ qq) :
    parsePQF (path ++ (markerRest '?' q ++ markerRest '#' f)) = (path, q, f) := by
  have hnm : '#' ∉ path ++ markerRest '?' q := by
    intro hmem
    rcases List.mem_append.mp hmem with h | h
    · exact hh h
    · cases q with
      | none => simp [markerRest] at h
      | some qq =>
        simp only [markerRest, List.mem_cons] at h
        rcases h with h | h
        · exact absurd h (by decide)
        · exact hqh qq rfl h
  have h1 : splitMarker '#' (path ++ (markerRest '?' q ++ markerRest '#' f))
      = (path ++ markerRest '?' q, f) := by
    cases f with
    | none =>
      simpa [markerRest] using splitMarker_of_not_mem hnm
    | some fb =>
      have hassoc : path ++ (markerRest '?' q ++ markerRest '#' (some fb))
          = (path ++ markerRest '?' q) ++ '#' :: fb := by
        simp [markerRest, List.append_assoc]
      rw [hassoc]
      exact splitMarker_of_append hnm
  have h2 : splitMarker '?' (path ++ markerRest '?' q) = (path, q) := by
    cases q with
    | none => simpa [markerRest] using splitMarker_of_not_mem hq
    | some qq => simpa [markerRest] using splitMarker_of_append hq
  unfold parsePQF
  rw [h1]
  simp only
  rw [h2]
  simp only
  rw [if_neg hne]

theorem parseURL_wf {s : List Char} {r : URLRec} (h : parseURL s = some r) : URLWF r := by
  unfold parseURL at h
  split at h
  · cases h
  · split at h
    · split at h
      · dsimp only at h
        split at h
        · cases h
        · rename_i sch rest0 rest heq hscheme hhost
          obtain rfl := (Option.some.inj h).symm
          obtain ⟨hseq, hall, hsnd⟩ := spanHost_spec (s := rest) rfl
          obtain ⟨hpq, hph, hqh⟩ := parsePQF_no_markers (spanHost rest).2
          exact ⟨hscheme, hhost, hall, parsePQF_shape hsnd, hpq, hph, hqh⟩
      · cases h
    · cases h

theorem parseURL_shape {sch : List Char} (hcolon : ':' ∉ sch) (X : List Char) :
    parseURL (sch ++ ':' :: '/' :: '/' :: X)
      = if schemeOk sch = true then
          (if (spanHost X).1 = [] then none
           else some ⟨sch, (spanHost X).1, (parsePQF (spanHost X).2).1,
                      (parsePQF (spanHost X).2).2.1, (parsePQF (spanHost X).2).2.2⟩)
        else none := by
  unfold parseURL
  rw [splitFirst_of_append hcolon]
  rfl

theorem parseURL_href {r : URLRec} (wf : URLWF r) : parseURL (URLRec.href r) = some r := by
  obtain ⟨pt, hpt⟩ := wf.path_shape
  have hcolon : ':' ∉ r.scheme := schemeOk_not_mem wf.scheme_ok (by decide)
  have hne : r.path ≠ [] := by rw [hpt]; exact List.cons_ne_nil _ _
  have e : URLRec.href r
      = r.scheme ++ ':' :: '/' :: '/' ::
          (r.host ++ (r.path ++ (markerRest '?' r.query ++ markerRest '#' r.fragment))) := by
    simp [URLRec.href, List.append_assoc]
  rw [e]
  rw [parseURL_shape hcolon]
  rw [if_pos wf.scheme_ok]
  have hb : r.path ++ (markerRest '?' r.query ++ markerRest '#' r.fragment)
      = '/' :: (pt ++ (markerRest '?' r.query ++ markerRest '#' r.fragment)) := by
    rw [hpt]; rfl
  rw [spanHost_of_append wf.host_ok
    (Or.inr ⟨'/', pt ++ (markerRest '?' r.query ++ markerRest '#' r.fragment), hb, by decide⟩)]
  dsimp only
  rw [if_neg wf.host_ne]
  rw [parsePQF_reassemble hne wf.path_no_query wf.path_no_hash wf.query_no_hash]

theorem href_no_hash {r : URLRec} (wf : URLWF r) (hf : r.fragment = none) :
    '#' ∉ URLRec.href r := by
  have hscheme : '#' ∉ r.scheme := schemeOk_not_mem wf.scheme_ok (by decide)
  have hhost : '#' ∉ r.host := fun hm => absurd (wf.host_ok '#' hm) (by decide)
  have hq : '#' ∉ markerRest '?' r.query := by
    cases hq0 : r.query with
    | none => simp [markerRest]
    | some qq =>
      simp only [markerRest, List.mem_cons]
      rintro (h | h)
      · exact absurd h (by decide)
      · exact wf.query_no_hash qq hq0 h
  unfold URLRec.href
  rw [hf]
  simp only [markerRest, List.append_nil]
  intro hmem
  rcases List.mem_append.mp hmem with hA | hmq
  · rcases List.mem_append.mp hA with hB | hpath
    · rcases List.mem_append.mp hB with hs | hcc
      · exact hscheme hs
      · simp only [List.mem_cons] at hcc
        rcases hcc with h | h | h | h
        · exact absurd h (by decide)
        · exact absurd h (by decide)
        · exact absurd h (by decide)
        · exact hhost h
    · exact wf.path_no_hash hpath
  · exact hq hmq

theorem normalizeUrl_of_parse {u : List Char} {r : URLRec} (base : List Char)
    (h : parseURL u = some r) :
    normalizeUrl u base = URLRec.href { r with fragment := none } := by
  unfold normalizeUrl resolveURL
  rw [h]

/-! ## Lemmas about the crawl loop -/

theorem enqueueLinks_spec (matcher : List Char → Bool) (visited : List (List Char)) :
    ∀ (links q : List (List Char)),
      ∃ t, enqueueLinks matcher visited q links = q ++ t ∧ t.Sublist links := by
  intro links
  induction links with
  | nil => exact fun q => ⟨[], by simp [enqueueLinks], List.nil_sublist _⟩
  | cons l ls ih =>
    intro q
    by_cases hc : matcher l = true ∧ l ∉ visited ∧ l ∉ q
    · obtain ⟨t, ht, hsub⟩ := ih (q ++ [l])
      refine ⟨l :: t, ?_, hsub.cons₂ l⟩
      unfold enqueueLinks
      rw [if_pos hc, ht]
      simp
    · obtain ⟨t, ht, hsub⟩ := ih q
      refine ⟨t, ?_, hsub.cons l⟩
      unfold enqueueLinks
      rw [if_neg hc, ht]

theorem step_results_length_le (web : List Char → Option (List (List Char)))
    (matcher : List Char → Bool) (maxPages : Nat) (s : CrawlState) :
    (step web matcher maxPages s).results.length ≤ s.results.length + 1 := by
  obtain ⟨res, vis, q, tr⟩ := s
  cases q with
  | nil => simp [step]
  | cons u rest =>
    unfold step
    dsimp only
    by_cases hu : u = []
    · rw [if_pos hu]; simp
    · rw [if_neg hu]
      by_cases hv : u ∈ vis
      · rw [if_pos hv]; simp
      · rw [if_neg hv]
        cases hw : web u with
        | none => simp
        | some links =>
          dsimp only
          by_cases hb : (res ++ [u]).length < maxPages
          · rw [if_pos hb]; simp
          · rw [if_neg hb]; simp

theorem step_results_skip (web : List Char → Option (List (List Char)))
    (matcher : List Char → Bool) (maxPages : Nat) (s : CrawlState)
    (u : List Char) (rest : List (List Char)) (hq : s.queue = u :: rest)
    (hskip : web u = none ∨ u ∈ s.visited) :
    (step web matcher maxPages s).results = s.results := by
  obtain ⟨res, vis, q, tr⟩ := s
  dsimp only at hq hskip
  subst hq
  unfold step
  dsimp only
  by_cases hu : u = []
  · rw [if_pos hu]
  · rw [if_neg hu]
    by_cases hv : u ∈ vis
    · rw [if_pos hv]
    · rw [if_neg hv]
      rcases hskip with hw | hv2
      · rw [hw]
      · exact absurd hv2 hv

theorem crawlRun_budget_le (web : List Char → Option (List (List Char)))
    (matcher : List Char → Bool) (maxPages : Nat) :
    ∀ (n : Nat) (s : CrawlState), s.results.length ≤ maxPages →
      (crawlRun web matcher maxPages n s).results.length ≤ maxPages := by
  intro n
  induction n with
  | zero => intro s h; exact h
  | succ n ih =>
    intro s h
    unfold crawlRun
    split
    · rename_i hguard
      apply ih
      calc (step web matcher maxPages s).results.length
          ≤ s.results.length + 1 := step_results_length_le web matcher maxPages s
        _ ≤ maxPages := hguard.2
    · exact h

theorem step_visited_grows (web : List Char → Option (List (List Char)))
    (matcher : List Char → Bool) (maxPages : Nat) (s : CrawlState) :
    s.visited <+: (step web matcher maxPages s).visited := by
  obtain ⟨res, vis, q, tr⟩ := s
  cases q with
  | nil => simp [step]
  | cons u rest =>
    unfold step
    dsimp only
    by_cases hu : u = []
    · rw [if_pos hu]
    · rw [if_neg hu]
      by_cases hv : u ∈ vis
      · rw [if_pos hv]
      · rw [if_neg hv]
        cases hw : web u with
        | none => exact List.prefix_append vis [u]
        | some links =>
          dsimp only
          by_cases hb : (res ++ [u]).length < maxPages
          · rw [if_pos hb]; exact List.prefix_append vis [u]
          · rw [if_neg hb]; exact List.prefix_append vis [u]

theorem crawlRun_visited_grows (web : List Char → Option (List (List Char)))
    (matcher : List Char → Bool) (maxPages : Nat) :
    ∀ (n : Nat) (s : CrawlState), s.visited <+: (crawlRun web matcher maxPages n s).visited := by
  intro n
  induction n with
  | zero => intro s; exact List.prefix_refl _
  | succ n ih =>
    intro s
    unfold crawlRun
    split
    · exact (step_visited_grows web matcher maxPages s).trans (ih _)
    · exact List.prefix_refl _

theorem step_mem_visited (web : List Char → Option (List (List Char)))
    (matcher : List Char → Bool) (maxPages : Nat) (s : CrawlState)
    (u : List Char) (rest : List (List Char)) (hq : s.queue = u :: rest) (hu : u ≠ []) :
    u ∈ (step web matcher maxPages s).visited := by
  obtain ⟨res, vis, q, tr⟩ := s
  dsimp only at hq
  subst hq
  unfold step
  dsimp only
  rw [if_neg hu]
  by_cases hv : u ∈ vis
  · rw [if_pos hv]; exact hv
  · rw [if_neg hv]
    cases hw : web u with
    | none => exact List.mem_append_right vis (List.mem_singleton_self u)
    | some links =>
      dsimp only
      by_cases hb : (res ++ [u]).length < maxPages
      · rw [if_pos hb]; exact List.mem_append_right vis (List.mem_singleton_self u)
      · rw [if_neg hb]; exact List.mem_append_right vis (List.mem_singleton_self u)

theorem step_visited_eq (web : List Char → Option (List (List Char)))
    (matcher : List Char → Bool) (maxPages : Nat) (s : CrawlState)
    (u : List Char) (rest : List (List Char)) (hq : s.queue = u :: rest) (hu : u ≠ []) :
    (step web matcher maxPages s).visited
      = if u ∈ s.visited then s.visited else s.visited ++ [u] := by
  obtain ⟨res, vis, q, tr⟩ := s
  dsimp only at hq
  subst hq
  unfold step
  dsimp only
  simp only [if_neg hu]
  by_cases hv : u ∈ vis
  · simp only [if_pos hv]
  · simp only [if_neg hv]
    cases hw : web u with
    | none => rfl
    | some links =>
      dsimp only
      by_cases hb : (res ++ [u]).length < maxPages
      · simp only [if_pos hb]
      · simp only [if_neg hb]

/-- The invariant behind result uniqueness: the result sequence has no
duplicates and every result URL is already in the visited set. -/
def ResultsInv (s : CrawlState) : Prop :=
  s.results.Nodup ∧ ∀ x ∈ s.results, x ∈ s.visited

theorem step_resultsInv (web : List Char → Option (List (List Char)))
    (matcher : List Char → Bool) (maxPages : Nat) (s : CrawlState)
    (h : ResultsInv s) : ResultsInv (step web matcher maxPages s) := by
  obtain ⟨hnd, hsub⟩ := h
  obtain ⟨res, vis, q, tr⟩ := s
  dsimp only at hnd hsub
  cases q with
  | nil => exact ⟨hnd, hsub⟩
  | cons u rest =>
    unfold step
    dsimp only
    by_cases hu : u = []
    · simp only [if_pos hu]; exact ⟨hnd, hsub⟩
    · simp only [if_neg hu]
      by_cases hv : u ∈ vis
      · simp only [if_pos hv]; exact ⟨hnd, hsub⟩
      · simp only [if_neg hv]
        cases hw : web u with
        | none =>
          refine ⟨hnd, fun x hx => List.mem_append_left _ (hsub x hx)⟩
        | some links =>
          have hninres : u ∉ res := fun hin => hv (hsub u hin)
          have hnd2 : (res ++ [u]).Nodup := by
            rw [List.nodup_append]
            exact ⟨hnd, List.nodup_singleton u,
              fun a ha hb => hninres ((List.mem_singleton.mp hb) ▸ ha)⟩
          have hsub2 : ∀ x ∈ res ++ [u], x ∈ vis ++ [u] := by
            intro x hx
            rcases List.mem_append.mp hx with hx | hx
            · exact List.mem_append_left _ (hsub x hx)
            · exact List.mem_append_right _ hx
          dsimp only
          by_cases hb : (res ++ [u]).length < maxPages
          · simp only [if_pos hb]; exact ⟨hnd2, hsub2⟩
          · simp only [if_neg hb]; exact ⟨hnd2, hsub2⟩

theorem crawlRun_resultsInv (web : List Char → Option (List (List Char)))
    (matcher : List Char → Bool) (maxPages : Nat) :
    ∀ (n : Nat) (s : CrawlState), ResultsInv s →
      ResultsInv (crawlRun web matcher maxPages n s) := by
  intro n
  induction n with
  | zero => exact fun s h => h
  | succ n ih =>
    intro s h
    unfold crawlRun
    split
    · exact ih _ (step_resultsInv web matcher maxPages s h)
    · exact h

theorem step_trace_dequeues_front (web : List Char → Option (List (List Char)))
    (matcher : List Char → Bool) (maxPages : Nat) (s : CrawlState)
    (u : List Char) (rest : List (List Char)) (hq : s.queue = u :: rest) :
    (step web matcher maxPages s).trace = s.trace ++ [u] := by
  obtain ⟨res, vis, q, tr⟩ := s
  dsimp only at hq
  subst hq
  unfold step
  dsimp only
  by_cases hu : u = []
  · simp only [if_pos hu]
  · simp only [if_neg hu]
    by_cases hv : u ∈ vis
    · simp only [if_pos hv]
    · simp only [if_neg hv]
      cases hw : web u with
      | none => rfl
      | some links =>
        dsimp only
        by_cases hb : (res ++ [u]).length < maxPages
        · simp only [if_pos hb]
        · simp only [if_neg hb]

theorem step_queue_appends_back (web : List Char → Option (List (List Char)))
    (matcher : List Char → Bool) (maxPages : Nat) (s : CrawlState)
    (u : List Char) (rest : List (List Char)) (hq : s.queue = u :: rest) :
    ∃ t, (step web matcher maxPages s).queue = rest ++ t ∧
      ∀ links, web u = some links → t.Sublist links := by
  obtain ⟨res, vis, q, tr⟩ := s
  dsimp only at hq
  subst hq
  unfold step
  dsimp only
  by_cases hu : u = []
  · simp only [if_pos hu]
    exact ⟨[], by simp, fun links _ => List.nil_sublist links⟩
  · simp only [if_neg hu]
    by_cases hv : u ∈ vis
    · simp only [if_pos hv]
      exact ⟨[], by simp, fun links _ => List.nil_sublist links⟩
    · simp only [if_neg hv]
      cases hw : web u with
      | none =>
        exact ⟨[], by simp, fun links hlk => by cases hlk⟩
      | some links0 =>
        dsimp only
        by_cases hb : (res ++ [u]).length < maxPages
        · simp only [if_pos hb]
          obtain ⟨t, ht, hsub⟩ := enqueueLinks_spec matcher (vis ++ [u]) links0 rest
          refine ⟨t, ht, fun links hlk => ?_⟩
          obtain rfl := Option.some.inj hlk
          exact hsub
        · simp only [if_neg hb]
          exact ⟨[], by simp, fun links _ => List.nil_sublist links⟩

theorem extractLinks_internal_sublist (anchors : List Anchor) (baseUrl baseDomain : List Char) :
    ((extractLinks anchors baseUrl baseDomain).1).Sublist (anchors.filterMap (mkLink baseUrl)) := by
  induction anchors with
  | nil => exact List.nil_sublist _
  | cons a rest ih =>
    unfold extractLinks
    dsimp only
    cases hm : mkLink baseUrl a with
    | none => simpa [List.filterMap_cons, hm] using ih
    | some link =>
      simp only [List.filterMap_cons, hm]
      by_cases he : isExternal link.href baseDomain = true
      · simp only [if_pos he]
        exact ih.cons link
      · simp only [if_neg he]
        exact ih.cons₂ link

theorem mem_extractMedia_images (els : List MediaEl) (baseUrl : List Char) (it : MediaItem) :
    it ∈ (extractMedia els baseUrl).1
      ↔ ∃ src alt, MediaEl.img (some src) alt ∈ els ∧ src ≠ [] ∧
          "data:".toList.isPrefixOf src = false ∧
          it = ⟨normalizeUrl src baseUrl, some (alt.getD []), MType.image⟩ := by
  unfold extractMedia
  rw [List.mem_filterMap]
  constructor
  · rintro ⟨e, he, hfe⟩
    cases e with
    | img osrc alt =>
      cases osrc with
      | none => simp [mkImage] at hfe
      | some src =>
        unfold mkImage at hfe
        dsimp only at hfe
        split at hfe
        · cases hfe
        · split at hfe
          · cases hfe
          · rename_i h1 h2
            exact ⟨src, alt, he, h1, Bool.eq_false_iff.mpr h2, (Option.some.inj hfe).symm⟩
    | video osrc => simp [mkImage] at hfe
  · rintro ⟨src, alt, he, h1, h2, rfl⟩
    refine ⟨MediaEl.img (some src) alt, he, ?_⟩
    unfold mkImage
    dsimp only
    rw [if_neg h1, if_neg (by rw [h2]; simp)]

/-! ## Claim theorems -/

/-- C1: For every crawl graph, scope matcher, and configured page budget
`maxPages ≥ 1`, the PageResult sequence of one crawl run has length at
most `maxPages`; and an iteration that dequeues a URL whose render fails
(`web u = none`) or that is already visited leaves the result sequence
unchanged, so such pages do not count against the budget. -/
theorem crawl_budget_invariant :
    (∀ (web : List Char → Option (List (List Char))) (matcher : List Char → Bool)
        (maxPages : Nat) (seed : List Char) (n : Nat), 1 ≤ maxPages →
        ((crawlRun web matcher maxPages n (initState seed)).results).length ≤ maxPages) ∧
    (∀ (web : List Char → Option (List (List Char))) (matcher : List Char → Bool)
        (maxPages : Nat) (s : CrawlState) (u : List Char) (rest : List (List Char)),
        s.queue = u :: rest → (web u = none ∨ u ∈ s.visited) →
        (step web matcher maxPages s).results = s.results) := by
  constructor
  · intro web matcher maxPages seed n _
    apply crawlRun_budget_le
    simp [initState]
  · intro web matcher maxPages s u rest hq hskip
    exact step_results_skip web matcher maxPages s u rest hq hskip

/-- Witness for C1: a concrete run with budget 1 stops at one result, and
a concrete failing dequeue leaves the results unchanged. -/
theorem crawl_budget_invariant_witness :
    ((crawlRun webC3 (fun _ => true) 1 5 (initState "s".toList)).results).length ≤ 1 ∧
      (step webC3 (fun _ => true) 1 ⟨[], [], ["f".toList], []⟩).results
        = (⟨[], [], ["f".toList], []⟩ : CrawlState).results :=
  ⟨crawl_budget_invariant.1 webC3 (fun _ => true) 1 "s".toList 5 (by decide),
   crawl_budget_invariant.2 webC3 (fun _ => true) 1 ⟨[], [], ["f".toList], []⟩
     "f".toList [] rfl (Or.inl (by decide))⟩

/-- C2: Across one crawl run the visited set only grows (the old visited
list is a prefix of any later one); every dequeued non-empty URL is in
the visited set as soon as its iteration runs, and the visited update is
the same whatever the render returns — it happens at dequeue time, before
rendering; and no URL appears twice in the PageResult sequence of a run. -/
theorem crawl_visited_monotone_results_unique :
    (∀ (web : List Char → Option (List (List Char))) (matcher : List Char → Bool)
        (maxPages n : Nat) (s : CrawlState),
        s.visited <+: (crawlRun web matcher maxPages n s).visited) ∧
    (∀ (web : List Char → Option (List (List Char))) (matcher : List Char → Bool)
        (maxPages : Nat) (s : CrawlState) (u : List Char) (rest : List (List Char)),
        s.queue = u :: rest → u ≠ [] →
        u ∈ (step web matcher maxPages s).visited ∧
          (step web matcher maxPages s).visited
            = if u ∈ s.visited then s.visited else s.visited ++ [u]) ∧
    (∀ (web : List Char → Option (List (List Char))) (matcher : List Char → Bool)
        (maxPages n : Nat) (seed : List Char),
        ((crawlRun web matcher maxPages n (initState seed)).results).Nodup) := by
  refine ⟨?_, ?_, ?_⟩
  · intro web matcher maxPages n s
    exact crawlRun_visited_grows web matcher maxPages n s
  · intro web matcher maxPages s u rest hq hu
    exact ⟨step_mem_visited web matcher maxPages s u rest hq hu,
           step_visited_eq web matcher maxPages s u rest hq hu⟩
  · intro web matcher maxPages n seed
    exact (crawlRun_resultsInv web matcher maxPages n (initState seed)
      ⟨List.nodup_nil, by simp [initState]⟩).1

/-- Witness for C2: the concretely dequeued seed is visited right after
its iteration. -/
theorem crawl_visited_monotone_results_unique_witness :
    "s".toList ∈ (step webC3 (fun _ => true) 10 (initState "s".toList)).visited :=
  (crawl_visited_monotone_results_unique.2.1 webC3 (fun _ => true) 10
    (initState "s".toList) "s".toList [] rfl (by decide)).1

/-- C3: The frontier is a FIFO queue — each iteration removes exactly the
front of the queue and appends the kept links at the back as an
order-preserving sublist of the page's link list; the internal-link bucket
produced by `extractLinks` is itself an order-preserving sublist of the
anchors in document order; consequently, on the concrete site where the
seed `s` links to `a` then `d` and `a` links to `b` then `c`, the dequeue
order is `s, a, d, b, c` — `b` before `c`, both after `d`, which was
already in the frontier when `a`'s links were appended. -/
theorem crawl_fifo_order :
    (∀ (web : List Char → Option (List (List Char))) (matcher : List Char → Bool)
        (maxPages : Nat) (s : CrawlState) (u : List Char) (rest : List (List Char)),
        s.queue = u :: rest →
        (step web matcher maxPages s).trace = s.trace ++ [u] ∧
          ∃ t, (step web matcher maxPages s).queue = rest ++ t ∧
            ∀ links, web u = some links → t.Sublist links) ∧
    (∀ (anchors : List Anchor) (baseUrl baseDomain : List Char),
        ((extractLinks anchors baseUrl baseDomain).1).Sublist
          (anchors.filterMap (mkLink baseUrl))) ∧
    ((crawlRun webC3 (fun _ => true) 10 10 (initState "s".toList)).trace
      = ["s".toList, "a".toList, "d".toList, "b".toList, "c".toList]) := by
  refine ⟨?_, extractLinks_internal_sublist, by decide⟩
  intro web matcher maxPages s u rest hq
  exact ⟨step_trace_dequeues_front web matcher maxPages s u rest hq,
         step_queue_appends_back web matcher maxPages s u rest hq⟩

/-- Witness for C3: the first iteration of the concrete crawl dequeues
exactly the seed. -/
theorem crawl_fifo_order_witness :
    (step webC3 (fun _ => true) 10 (initState "s".toList)).trace
      = (initState "s".toList).trace ++ ["s".toList] :=
  (crawl_fifo_order.1 webC3 (fun _ => true) 10 (initState "s".toList)
    "s".toList [] rfl).1

/-- C4 (counterexample): the claimed biconditional — external iff the
`www.`-stripped hostname neither equals `baseDomain` nor ends with
`"." ++ baseDomain` — fails at url `https://notexample.com/` with
baseDomain `example.com`: the hostname `notexample.com` is neither the
domain nor a dot-separated subdomain of it, yet `isExternal` returns
`false`, because the source checks a plain `endsWith(baseDomain)`. -/
theorem isExternal_claim_counterexample :
    ¬ (isExternal "https://notexample.com/".toList "example.com".toList = true
        ↔ (stripWWW (hostnameOf "https://notexample.com/".toList) ≠ "example.com".toList
            ∧ ('.' :: "example.com".toList).isSuffixOf
                (stripWWW (hostnameOf "https://notexample.com/".toList)) = false)) := by
  decide

/-- C4 (amended): `isExternal url baseDomain` is `true` iff `url` parses
and `baseDomain` is not a plain suffix of the `www.`-stripped hostname —
so a hostname that merely ends in the domain's characters without a dot
separator (such as `notexample.com` for `example.com`) is also treated as
internal; on parse failure it returns `false`. -/
theorem isExternal_amended (url dom : List Char) :
    isExternal url dom = true
      ↔ ∃ r, parseURL url = some r ∧ ¬ dom <:+ stripWWW r.host := by
  unfold isExternal
  cases hp : parseURL url with
  | none => simp
  | some r =>
    simp only [Option.some.injEq]
    constructor
    · intro h
      refine ⟨r, rfl, fun hsuf => ?_⟩
      rw [← List.isSuffixOf_iff_suffix] at hsuf
      rw [hsuf] at h
      simp at h
    · rintro ⟨r2, rfl, hnsuf⟩
      cases hsuf : dom.isSuffixOf (stripWWW r.host) with
      | false => rfl
      | true => exact absurd (List.isSuffixOf_iff_suffix.mp hsuf) hnsuf

/-- C5: the compiled glob matcher is full-string anchored (`^...$`), a
lone `*` matches zero or more non-slash characters, and `**` matches
across slashes: `https://a.com/*` accepts `https://a.com/x` and rejects
both `https://a.com/x/y` and the proper superstring `bhttps://a.com/x`,
while `https://a.com/**` accepts `https://a.com/x/y/z`. -/
theorem createMatchRegex_glob_semantics :
    regexTest "https://a.com/*".toList "https://a.com/x".toList = true ∧
    regexTest "https://a.com/*".toList "https://a.com/x/y".toList = false ∧
    regexTest "https://a.com/**".toList "https://a.com/x/y/z".toList = true ∧
    regexTest "https://a.com/*".toList "bhttps://a.com/x".toList = false ∧
    ∀ p : List Char, ∃ body, createMatchRegex p = '^' :: body ++ ['$'] :=
  ⟨by decide, by decide, by decide, by decide, fun p => ⟨_, rfl⟩⟩

/-- C6: for a URL that parses absolutely and carries a fragment,
`normalizeUrl` produces a string with no `#` (the fragment component is
stripped), and `normalizeUrl` is idempotent on it. -/
theorem normalizeUrl_strips_fragment_idempotent
    (u base : List Char) (r : URLRec) (f : List Char)
    (hp : parseURL u = some r) (_hfrag : r.fragment = some f) :
    '#' ∉ normalizeUrl u base ∧
      normalizeUrl (normalizeUrl u base) base = normalizeUrl u base := by
  have wf := parseURL_wf hp
  have wf2 : URLWF { r with fragment := none } :=
    ⟨wf.scheme_ok, wf.host_ne, wf.host_ok, wf.path_shape,
     wf.path_no_query, wf.path_no_hash, wf.query_no_hash⟩
  have h1 : normalizeUrl u base = URLRec.href { r with fragment := none } :=
    normalizeUrl_of_parse base hp
  constructor
  · rw [h1]
    exact href_no_hash wf2 rfl
  · rw [h1]
    rw [normalizeUrl_of_parse base (parseURL_href wf2)]

/-- Witness for C6 at `https://ex.com/a#sec`. -/
theorem normalizeUrl_strips_fragment_idempotent_witness :
    '#' ∉ normalizeUrl "https://ex.com/a#sec".toList "https://ex.com".toList ∧
      normalizeUrl (normalizeUrl "https://ex.com/a#sec".toList "https://ex.com".toList)
          "https://ex.com".toList
        = normalizeUrl "https://ex.com/a#sec".toList "https://ex.com".toList :=
  normalizeUrl_strips_fragment_idempotent
    "https://ex.com/a#sec".toList "https://ex.com".toList
    ⟨"https".toList, "ex.com".toList, "/a".toList, none, some "sec".toList⟩
    "sec".toList (by decide) rfl

/-- C7: whenever URL resolution fails, `normalizeUrl` returns the
original `href` unchanged; being a total function, the model never
throws — failure surfaces only as the `none` branch handled here. -/
theorem normalizeUrl_failure_returns_href (href base : List Char)
    (h : resolveURL href base = none) : normalizeUrl href base = href := by
  unfold normalizeUrl
  rw [h]

/-- Witness for C7: a concrete unresolvable pair. -/
theorem normalizeUrl_failure_returns_href_witness :
    normalizeUrl "not-a-url".toList [] = "not-a-url".toList :=
  normalizeUrl_failure_returns_href "not-a-url".toList [] (by decide)

/-- C8: `isValidUrl s` is `true` iff `s` parses as an absolute URL with
both a scheme and an authority (non-empty host) component. -/
theorem isValidUrl_iff_scheme_authority (s : List Char) :
    isValidUrl s = true ↔ ∃ r, parseURL s = some r ∧ r.scheme ≠ [] ∧ r.host ≠ [] := by
  constructor
  · intro h
    unfold isValidUrl at h
    cases hp : parseURL s with
    | none => rw [hp] at h; cases h
    | some r =>
      have wf := parseURL_wf hp
      refine ⟨r, rfl, ?_, wf.host_ne⟩
      intro hnil
      have hok := wf.scheme_ok
      rw [hnil] at hok
      simp [schemeOk] at hok
  · rintro ⟨r, hp, _, _⟩
    unfold isValidUrl
    rw [hp]
    rfl

/-- C9: media extraction keeps exactly the images whose `src` attribute is
present, non-empty, and not a `data:` URI, resolving the src against the
page URL; in particular a page at `https://ex.com` with a data-URI image
and an image at `/b.jpg` yields exactly one image entry, with src
`https://ex.com/b.jpg`. -/
theorem extractMedia_images_spec :
    (∀ (els : List MediaEl) (baseUrl : List Char) (it : MediaItem),
        it ∈ (extractMedia els baseUrl).1
          ↔ ∃ src alt, MediaEl.img (some src) alt ∈ els ∧ src ≠ [] ∧
              "data:".toList.isPrefixOf src = false ∧
              it = ⟨normalizeUrl src baseUrl, some (alt.getD []), MType.image⟩) ∧
    ((extractMedia
        [MediaEl.img (some "data:image/png;base64,AAA".toList) none,
         MediaEl.img (some "/b.jpg".toList) none] "https://ex.com".toList).1
      = [⟨"https://ex.com/b.jpg".toList, some [], MType.image⟩]) :=
  ⟨mem_extractMedia_images, by decide⟩

/-- C10: the compiler escapes only `.` among regex metacharacters, so a
`*`-free pattern containing another metacharacter keeps its regex meaning:
for `https://a.com/p?q=1` the compiled matcher does not accept the pattern
string itself (the `?` makes the preceding `p` optional instead of
matching a literal `?`). -/
theorem createMatchRegex_escapes_only_dot :
    '*' ∉ "https://a.com/p?q=1".toList ∧
      regexTest "https://a.com/p?q=1".toList "https://a.com/p?q=1".toList = false := by
  decide
